import Mathlib

/-!
Verification of the ctm-monitor outbound Azure chat client.

This file shallowly embeds the resilient outbound-request core of the
repository (token-bucket rate limiter, circuit breaker, retry engine,
streaming SSE parser with policy-based truncation, streaming limit policy,
provenance recorder) and proves or refutes the frozen specification claims
about it.

Conventions:
* JavaScript timestamps (`Date.now()` milliseconds) are modelled as `Int`.
* Machine integers in hash loops (`>>> 0`) are `Nat` reduced `% 2^32`.
* JavaScript built-ins that are not part of the repository (`JSON.parse`,
  `Date.parse`, `Math.random`) are passed in as explicit function or value
  parameters of the embedded operations.
* All definitions are translated from the source listings in
  `src/README.md` (the Azure client module) and
  `src/dashboard-core/modules/agent/provenance.js` unless noted otherwise.
-/

namespace CtmMon

/-! ## JavaScript character classes

`\s` in a JavaScript regular expression matches the WhiteSpace and
LineTerminator productions.  `String.prototype.trim` strips the same set. -/

/-- The character set matched by `/\s/` in JavaScript (and stripped by
`String.prototype.trim`). -/
def jsWhitespace (c : Char) : Bool :=
  let v := c.toNat
  v = 32 || v = 9 || v = 10 || v = 11 || v = 12 || v = 13 ||
  v = 0xa0 || v = 0x1680 || (0x2000 ≤ v && v ≤ 0x200a) ||
  v = 0x2028 || v = 0x2029 || v = 0x202f || v = 0x205f || v = 0x3000 || v = 0xfeff

/-- The punctuation class `[,.;:!?()"'` + backtick + `]` used by the naive
tokenizer in `src/README.md` line 323.  The double quote, apostrophe and
backtick are written by code point. -/
def naivePunct (c : Char) : Bool :=
  c = ',' || c = '.' || c = ';' || c = ':' || c = '!' || c = '?' ||
  c = '(' || c = ')' || c = Char.ofNat 34 || c = Char.ofNat 39 || c = Char.ofNat 96

/-- JavaScript `String.prototype.trim` on a character list. -/
def jsTrimL (l : List Char) : List Char :=
  ((l.dropWhile jsWhitespace).reverse.dropWhile jsWhitespace).reverse

/-- JavaScript `String.prototype.trim`. -/
def jsTrim (s : String) : String := ⟨jsTrimL s.toList⟩

/-- The number of UTF-16 code units of a string, i.e. the JavaScript
`String.prototype.length`. -/
def utf16Length (s : String) : Nat :=
  (s.toList.map (fun c => if c.toNat < 0x10000 then 1 else 2)).sum

/-! ## Naive token estimator

`naiveCount` (`src/README.md` lines 320-325) splits on whitespace runs with
`split(/[\s]+/)`, further splits every piece on single punctuation
characters with `split(/([,.;:!?()"'` + backtick + `])/)` (the capture group keeps the
delimiters), and counts the non-empty fragments. -/

/-- JavaScript `str.split(/([c])/)` for a single-character class `p`: split at
every character satisfying `p`, keeping each delimiter as its own fragment
(the capture group), with possibly empty fragments between delimiters. -/
def splitKeep (p : Char → Bool) : List Char → List (List Char)
  | [] => [[]]
  | c :: cs =>
    if p c then
      [] :: [c] :: splitKeep p cs
    else
      let r := splitKeep p cs
      (c :: r.headI) :: r.tail

/-- Whether a list starts with a character matched by `p`. -/
def headSep (p : Char → Bool) : List Char → Bool
  | [] => false
  | c :: _ => p c

/-- JavaScript `str.split(/[c]+/)` for a single-character class `p`: split on
maximal runs of characters satisfying `p`; a leading or trailing run yields an
empty fragment, interior runs do not.  A separator character merges with an
immediately following separator (one run, one split point). -/
def splitRuns (p : Char → Bool) : List Char → List (List Char)
  | [] => [[]]
  | c :: cs =>
    let r := splitRuns p cs
    if p c then
      if headSep p cs then r else [] :: r
    else
      (c :: r.headI) :: r.tail

/-- Core of `naiveCount` on a list of characters: split on whitespace runs,
sub-split every piece on single punctuation characters keeping the
delimiters, drop empty fragments (`filter(Boolean)`), and count the
remaining fragments (the final `.filter(Boolean).length`). -/
def naiveCountList (l : List Char) : Nat :=
  ((((splitRuns jsWhitespace l).flatMap
      (fun p => (splitKeep naivePunct p).filter (fun x => !x.isEmpty))).filter
      (fun x => !x.isEmpty)).length)

/-- Definition of `naiveCount` from `src/README.md` lines 320-325.  `if (!text) return 0`
short-circuits the empty string. -/
def naiveCount (s : String) : Nat :=
  if s = "" then 0 else naiveCountList s.toList

/-- Definition of `countTokens` from `src/README.md` lines 346-362 in the environment where
no real tokenizer module has been loaded (`realTokenizer` is `null`, the
state of a fresh process and of the verified configuration): it falls back to
`naiveCount`. -/
def countTokens (s : String) : Nat := naiveCount s

/-! Proof-support characterizations of `naiveCount`: a single left-to-right
fold counting punctuation characters and maximal runs of plain characters. -/

/-- Number of non-empty fragments of `splitKeep naivePunct w`: one fragment
per punctuation character plus one per maximal run of non-punctuation
characters.  `b` records whether the previous character continued such a
run. -/
def pCountFold (b : Bool) : List Char → Nat
  | [] => 0
  | c :: cs =>
    if naivePunct c then 1 + pCountFold false cs
    else (if b then 0 else 1) + pCountFold true cs

/-- Single-fold characterization of `naiveCountList`: whitespace separates,
punctuation counts one fragment each, and each maximal run of plain
characters counts one fragment.  `b` records whether the previous character
was plain. -/
def countRunsFold (b : Bool) : List Char → Nat
  | [] => 0
  | c :: cs =>
    if jsWhitespace c then countRunsFold false cs
    else if naivePunct c then 1 + countRunsFold false cs
    else (if b then 0 else 1) + countRunsFold true cs

/-- Whether a list starts with a character not matched by `p`. -/
def headNoSep (p : Char → Bool) : List Char → Bool
  | [] => false
  | c :: _ => !p c

/-- Whether a list starts with a plain character (neither whitespace nor
naive punctuation). -/
def headPlain : List Char → Bool
  | [] => false
  | c :: _ => !jsWhitespace c && !naivePunct c

/-- The run flag of `countRunsFold` after consuming a list. -/
def flagAfter (b : Bool) : List Char → Bool
  | [] => b
  | c :: cs =>
    flagAfter (if jsWhitespace c then false else if naivePunct c then false else true) cs

/-- Count of non-empty fragments after the punctuation sub-split of a single
whitespace-free word (the inner `filter(Boolean)` of `naiveCount`). -/
def innerCount (w : List Char) : Nat :=
  ((splitKeep naivePunct w).filter (fun x => !x.isEmpty)).length

/-! ## Circuit breaker

Translated from `cbState`, `circuitShouldBlock` and `circuitReport` in
`src/README.md` lines 402-460.  The JavaScript field `open` is called
`isOpen` here because `open` is a Lean keyword. -/

/-- The circuit breaker state `cbState` (`src/README.md` lines 402-409). -/
structure CBState where
  isOpen : Bool
  failures : Nat
  openedAt : Int
  cooldownMs : Int
  threshold : Nat
  halfOpenProbe : Bool
deriving DecidableEq, Repr

/-- Definition of `circuitShouldBlock` (`src/README.md` lines 429-439).  `Date.now()` is the
explicit `now` argument.  Returns the boolean result together with the
(possibly mutated) breaker state. -/
def circuitShouldBlock (st : CBState) (now : Int) : Bool × CBState :=
  if !st.isOpen then (false, st)
  else if st.cooldownMs < now - st.openedAt then
    -- Enter half-open probe
    (false, { st with halfOpenProbe := true })
  else (true, st)

/-- Definition of `circuitReport` (`src/README.md` lines 441-460). -/
def circuitReport (st : CBState) (success : Bool) (now : Int) : CBState :=
  if success then
    if st.halfOpenProbe || st.isOpen then
      -- Reset on successful probe
      { st with isOpen := false, halfOpenProbe := false, failures := 0 }
    else
      { st with failures := 0 }
  else
    let st1 := { st with failures := st.failures + 1 }
    if st1.threshold ≤ st1.failures ∧ st1.isOpen = false then
      { st1 with isOpen := true, openedAt := now }
    else st1

/-- A sequence of `circuitReport(false)` calls at the given timestamps. -/
def reportFailures (st : CBState) (ts : List Int) : CBState :=
  ts.foldl (fun s t => circuitReport s false t) st

/-! ## Token-bucket rate limiter

Translated from the module-level limiter state and `takeToken` in
`src/README.md` lines 384-399. -/

/-- The rate-limiter state (`rlCapacity`, `rlRefillMs`, `rlTokens`,
`rlLastRefill`, `src/README.md` lines 384-387). -/
structure RLState where
  capacity : Nat
  refillMs : Int
  tokens : Nat
  lastRefill : Int
deriving DecidableEq, Repr

/-- Definition of `takeToken` (`src/README.md` lines 391-399) with `Date.now()` passed
explicitly. -/
def takeToken (st : RLState) (now : Int) : Bool × RLState :=
  let st :=
    if st.refillMs ≤ now - st.lastRefill then
      { st with tokens := st.capacity, lastRefill := now }
    else st
  if 0 < st.tokens then (true, { st with tokens := st.tokens - 1 })
  else (false, st)

/-- A sequence of `takeToken` calls at the given timestamps, collecting the
boolean results. -/
def runTakeToken (st : RLState) : List Int → List Bool × RLState
  | [] => ([], st)
  | t :: ts =>
    let r := takeToken st t
    let rest := runTakeToken r.2 ts
    (r.1 :: rest.1, rest.2)

/-! ## Retry engine: `Retry-After` handling

Translated from `fetchWithRetry` lines 486-499 and `parseRetryAfter` lines
525-531 of `src/README.md`.  `Date.parse` is a JavaScript built-in and is
passed in as the explicit `dateParse` oracle; `Date.now()` is the explicit
`now`. -/

/-- JavaScript `parseInt(value, 10)` on a non-empty all-digit ASCII string. -/
def digitsToNat (l : List Char) : Nat :=
  l.foldl (fun a c => a * 10 + (c.toNat - 48)) 0

/-- Definition of `parseRetryAfter` (`src/README.md` lines 525-531).  Returns `none` for
`null`: an empty value, or a value that is neither all digits nor a
parseable date.  An all-digit value is seconds, multiplied by 1000; a date
yields the non-negative milliseconds until that date. -/
def parseRetryAfter (dateParse : String → Option Int) (now : Int) (value : String) :
    Option Int :=
  if value = "" then none
  else if value.toList.all (fun c => c.isDigit) then some (digitsToNat value.toList * 1000)
  else
    match dateParse value with
    | some d => some (max 0 (d - now))
    | none => none

/-- The delay used before the next attempt after a retriable response
(`src/README.md` lines 488-495): start from the computed (possibly
jittered) exponential delay; on a 429 with a `Retry-After` header whose
parsed value is truthy (non-`null` and non-zero), override with that value
capped at `maxDelay`.  `computed` stands for the result of
`computeDelay(attempt, baseDelay, maxDelay)`. -/
def retryDelayFor (computed maxDelay : Int) (status : Nat)
    (retryAfterHdr : Option String) (dateParse : String → Option Int) (now : Int) : Int :=
  if status = 429 then
    match retryAfterHdr with
    | some ra =>
      match parseRetryAfter dateParse now ra with
      | some p => if p ≠ 0 then min p maxDelay else computed
      | none => computed
    | none => computed
  else computed

/-! ## Request gateway: gating order

A trace-level embedding of `azureInvokeChat` (`src/README.md` lines
603-633) and the gating prologue of `fetchWithRetry` (lines 464-480),
recording the order of the externally observable actions. -/

/-- Observable actions of a chat invocation. -/
inductive GateEv where
  | resolveAuth
  | circuitCheck
  | rateCheck
  | fetchAttempt
deriving DecidableEq, Repr

/-- Fail-fast errors of the gating prologue. -/
inductive GateErr where
  | notConfigured
  | noDeployment
  | circuitOpen
  | rateLimited
deriving DecidableEq, Repr

/-- The gating prologue of `fetchWithRetry` (`src/README.md` lines
471-480): consult the circuit breaker, then the token bucket; a rejection
by either throws before any `fetch` happens.  Otherwise the attempt loop
performs the first network fetch.  The trace records the order. -/
def fetchWithRetryGate (cb : CBState) (rl : RLState) (now : Int) :
    List GateEv × Except GateErr (CBState × RLState) :=
  let blocked := circuitShouldBlock cb now
  if blocked.1 then ([.circuitCheck], .error .circuitOpen)
  else
    let took := takeToken rl now
    if !took.1 then ([.circuitCheck, .rateCheck], .error .rateLimited)
    else ([.circuitCheck, .rateCheck, .fetchAttempt], .ok (blocked.2, took.2))

/-- Embedding of `azureInvokeChat` up to the first network attempt (`src/README.md`
lines 603-617): configuration check, deployment mapping, then
`resolveAuthHeaders()` is awaited, and only then `fetchWithRetry` runs its
circuit-breaker and rate-limiter gates. -/
def azureInvokeChatGate (configured hasDeployment : Bool)
    (cb : CBState) (rl : RLState) (now : Int) :
    List GateEv × Except GateErr (CBState × RLState) :=
  if !configured then ([], .error .notConfigured)
  else if !hasDeployment then ([], .error .noDeployment)
  else
    let rest := fetchWithRetryGate cb rl now
    (.resolveAuth :: rest.1, rest.2)

/-! ## Streaming limit policy

Translated from `evaluateStreamingLimit`
(`src/dashboard-core/modules/agent/provenance.js`, second module part,
lines 97-113 of the file).  `Math.floor(limit * 0.75)` and
`Math.floor(limit * 1.25)` are exact in IEEE double arithmetic for any
integer limit in range, and equal `⌊3·limit/4⌋` and `⌊5·limit/4⌋`, i.e.
`Int.fdiv`. -/

/-- The list `POSITIVE_KEYWORDS` from the limits module. -/
def positiveKeywords : List String :=
  ["research", "citation", "explain", "accessibility", "ethics", "educational", "educate"]

/-- JavaScript `toLowerCase`, restricted to the ASCII mapping (the keyword
matching below only involves ASCII characters). -/
def strToLower (s : String) : String := ⟨s.toList.map Char.toLower⟩

/-- JavaScript `hay.includes(needle)`: substring containment. -/
def containsSub (hay needle : String) : Bool :=
  decide (needle.toList <:+: hay.toList)

/-- Definition of `evaluateStreamingLimit(prompt, model)` (limit and rationale; the
configured base `STREAM_TOKEN_LIMIT` defaults to 800 and the hard cap
`STREAM_TOKEN_LIMIT_MAX` to 2000). -/
def evaluateStreamingLimit (base hardMax : Int) (prompt : String) : Int × String :=
  let limit := base
  let rationale := "Base streaming safety limit"
  let trimmed := jsTrim prompt
  let lr :=
    if utf16Length trimmed < 40 then
      (Int.fdiv (limit * 3) 4, "Short prompt heuristic reduction")
    else (limit, rationale)
  let lower := strToLower trimmed
  let lr :=
    if positiveKeywords.any (fun k => containsSub lower k) then
      (Int.fdiv (lr.1 * 5) 4, "Elevated for educational / research context")
    else lr
  let lr := if hardMax < lr.1 then (hardMax, lr.2 ++ " (capped)") else lr
  let lr := if lr.1 < 100 then ((100 : Int), lr.2) else lr
  lr

/-- The limit computation exactly as the specification claim words it:
start from the configured base; if the trimmed prompt is shorter than 40
characters replace the limit with `⌊limit·0.75⌋`; then, if the prompt
case-insensitively contains a positive keyword, replace it with
`⌊limit·1.25⌋` applied to the current value; cap at the hard maximum and
finally raise any smaller result to 100. -/
def claimedStreamingLimit (base hardMax : Int) (prompt : String) : Int :=
  let trimmed := jsTrim prompt
  let l1 := if utf16Length trimmed < 40 then Int.fdiv (base * 3) 4 else base
  let l2 :=
    if positiveKeywords.any (fun k => containsSub (strToLower trimmed) k) then
      Int.fdiv (l1 * 5) 4
    else l1
  max 100 (min hardMax l2)

/-! ## SSE stream parser and limiter

Translated from the `iterate` generator of `azureInvokeChatStream`
(`src/README.md` lines 671-726).  The input is modelled at the granularity
the claims speak about: the sequence of raw SSE events (the
`\n\n`-separated frames the chunk loop extracts from `buffer`).
`JSON.parse` is a JavaScript built-in; its behavior is the `parseJson`
oracle of the configuration: `none` models a thrown parse error, `some`
gives the parsed object restricted to the fields the generator reads
(`choices[0].delta.content` and the usage objects). -/

/-- The fields of a parsed SSE JSON payload that `iterate` reads.
`deltaContent` is `parsed.choices?.[0]?.delta?.content` (absent or a
string); `usage` is the numeric entries of
`parsed.usage || parsed.choices?.[0]?.usage` (empty when absent). -/
structure ChatChunk where
  deltaContent : Option String
  usage : List (String × Int)
deriving DecidableEq, Repr

/-- JavaScript-object update `usageAcc[k] = (usageAcc[k] || 0) + v`, preserving first-insertion key
order as a JavaScript object does. -/
def usageAdd (acc : List (String × Int)) (k : String) (v : Int) : List (String × Int) :=
  match acc with
  | [] => [(k, v)]
  | (k', v') :: rest => if k' = k then (k', v' + v) :: rest else (k', v') :: usageAdd rest k v

/-- Merge an event's usage fields into the accumulator. -/
def usageMerge (acc : List (String × Int)) (evt : List (String × Int)) :
    List (String × Int) :=
  evt.foldl (fun a kv => usageAdd a kv.1 kv.2) acc

/-- Mutable state of the `iterate` loop: `finalJSON`, `fullText`,
`usageAcc` and `tokenCount`. -/
structure IterState where
  finalJSON : Option ChatChunk
  fullText : String
  usageAcc : List (String × Int)
  tokenCount : Nat
deriving DecidableEq, Repr

/-- The events `iterate` yields. -/
inductive StreamEvent where
  | limitInfo (limit : Nat) (rationale : String)
  | delta (text : String) (tokens : Nat) (limit : Nat) (usage : Option (List (String × Int)))
  | limitNotice (limit : Nat) (tokens : Nat) (rationale : String)
deriving DecidableEq, Repr

/-- The aggregate object `iterate` returns.  Optional fields model fields
that the corresponding return statement may omit: the `[DONE]` and
end-of-stream returns carry no `truncated`, `limit` or `rationale` fields
at all. -/
structure StreamFinal where
  model : String
  output : String
  raw : Option ChatChunk
  usage : Option (List (String × Int))
  truncated : Option Bool
  limit : Option Nat
  rationale : Option String
deriving DecidableEq, Repr

/-- How the produced sequence ended: via the `[DONE]` sentinel, by hitting
the policy limit, or because the reader was exhausted without `[DONE]`. -/
inductive EndKind where
  | doneSentinel
  | limitHit
  | exhausted
deriving DecidableEq, Repr

/-- Static configuration of one stream: the model name, the enforced limit
and rationale (`evaluateStreamingLimit` plus optional legacy cap), the
maximum SSE event byte size (`AZURE_SSE_MAX_EVENT_BYTES`, default 65536),
and the `JSON.parse` oracle. -/
structure StreamCfg where
  model : String
  enforcedLimit : Nat
  rationale : String
  maxEventBytes : Nat
  parseJson : String → Option ChatChunk

/-- The aggregate returned at `[DONE]` and at reader exhaustion
(`src/README.md` lines 694-696 and 723-725): `{model, output}` plus `raw`
if a JSON object was seen and `usage` if any usage keys accumulated — and
no `truncated` field. -/
def doneFinal (cfg : StreamCfg) (st : IterState) : StreamFinal :=
  { model := cfg.model
    output := st.fullText
    raw := st.finalJSON
    usage := if st.usageAcc.isEmpty then none else some st.usageAcc
    truncated := none
    limit := none
    rationale := none }

/-- The aggregate returned when the running token estimate reaches the
limit (`src/README.md` line 715): carries `truncated: true`, the limit and
the rationale. -/
def limitFinal (cfg : StreamCfg) (st : IterState) : StreamFinal :=
  { model := cfg.model
    output := st.fullText
    raw := none
    usage := if st.usageAcc.isEmpty then none else some st.usageAcc
    truncated := some true
    limit := some cfg.enforcedLimit
    rationale := some cfg.rationale }

/-- Result of processing one unit: continue with a new state, or finish
with a final aggregate. -/
inductive StepRes where
  | cont (st : IterState)
  | fin (k : EndKind) (f : StreamFinal)
deriving DecidableEq

/-- Processing of a single `data:` line (`src/README.md` lines 692-720):
`[DONE]` returns the aggregate; a JSON parse failure is ignored; otherwise
`finalJSON` is updated, usage fields merge, and a (truthy) delta is
appended to `fullText`, tokens are recounted, and either a `limit_notice`
plus truncated aggregate is produced (estimate at or above the limit, with
a truthy limit) or a delta event is yielded. -/
def processDataLine (cfg : StreamCfg) (st : IterState) (dl : String) :
    List StreamEvent × StepRes :=
  if dl = "[DONE]" then ([], .fin .doneSentinel (doneFinal cfg st))
  else
    match cfg.parseJson dl with
    | none => ([], .cont st)
    | some parsed =>
      let st1 := { st with finalJSON := some parsed,
                           usageAcc := usageMerge st.usageAcc parsed.usage }
      match parsed.deltaContent with
      | none => ([], .cont st1)
      | some d =>
        if d = "" then ([], .cont st1)
        else
          let fullText := st1.fullText ++ d
          let tokenCount := countTokens fullText
          let st2 := { st1 with fullText := fullText, tokenCount := tokenCount }
          if cfg.enforcedLimit ≠ 0 ∧ cfg.enforcedLimit ≤ tokenCount then
            ([.limitNotice cfg.enforcedLimit tokenCount cfg.rationale],
              .fin .limitHit (limitFinal cfg st2))
          else
            ([.delta d tokenCount cfg.enforcedLimit
                (if st2.usageAcc.isEmpty then none else some st2.usageAcc)],
              .cont st2)

/-- Process the `data:` lines of one raw event in order, stopping at the
first final aggregate. -/
def processLines (cfg : StreamCfg) (st : IterState) :
    List String → List StreamEvent × StepRes
  | [] => ([], .cont st)
  | dl :: rest =>
    match processDataLine cfg st dl with
    | (evs, .cont st') =>
      let r := processLines cfg st' rest
      (evs ++ r.1, r.2)
    | (evs, .fin k f) => (evs, .fin k f)

/-- JavaScript `str.split(/[c]/)` on a single separator character: split at
every occurrence, keeping empty pieces. -/
def splitChar (sep : Char) : List Char → List (List Char)
  | [] => [[]]
  | c :: cs =>
    let r := splitChar sep cs
    if c = sep then [] :: r else (c :: r.headI) :: r.tail

/-- Extraction of the `data:` lines of a raw SSE event (`src/README.md`
lines 690-691): split on newlines (`split(/\n/)`), trim, drop empties, keep
`data:` lines, and strip the 5-character `data:` tag then trim. -/
def dataLines (raw : String) : List String :=
  ((((splitChar '\n' raw.toList).map jsTrimL).filter (fun l => !l.isEmpty)).filter
      (fun l => "data:".toList.isPrefixOf l)).map (fun l => ⟨jsTrimL (l.drop 5)⟩)

/-- Processing of one raw SSE event (`src/README.md` lines 685-691): an
event whose byte length exceeds the configured maximum (when that maximum
is truthy) is skipped entirely; otherwise its `data:` lines are processed. -/
def processEvent (cfg : StreamCfg) (st : IterState) (raw : String) :
    List StreamEvent × StepRes :=
  if cfg.maxEventBytes ≠ 0 ∧ cfg.maxEventBytes < raw.utf8ByteSize then ([], .cont st)
  else processLines cfg st (dataLines raw)

/-- Process the stream's raw SSE events in order. -/
def processEvents (cfg : StreamCfg) (st : IterState) :
    List String → List StreamEvent × StepRes
  | [] => ([], .cont st)
  | e :: rest =>
    match processEvent cfg st e with
    | (evs, .cont st') =>
      let r := processEvents cfg st' rest
      (evs ++ r.1, r.2)
    | (evs, .fin k f) => (evs, .fin k f)

/-- The whole `iterate` generator on a stream of raw SSE events: the
initial `limit_info` transparency event, then event processing; if the
reader is exhausted without `[DONE]` or limit, the end-of-loop aggregate
(same shape as the `[DONE]` one) is returned. -/
def runStream (cfg : StreamCfg) (events : List String) :
    List StreamEvent × EndKind × StreamFinal :=
  let st0 : IterState := ⟨none, "", [], 0⟩
  match processEvents cfg st0 events with
  | (evs, .cont st) =>
    (.limitInfo cfg.enforcedLimit cfg.rationale :: evs, .exhausted, doneFinal cfg st)
  | (evs, .fin k f) => (.limitInfo cfg.enforcedLimit cfg.rationale :: evs, k, f)

/-- The `tokens` fields of the delta events of an event list, in order. -/
def deltaTokens : List StreamEvent → List Nat
  | [] => []
  | .delta _ tk _ _ :: rest => tk :: deltaTokens rest
  | _ :: rest => deltaTokens rest

/-- Proof-support invariant: a processing step starting from state `st`
emits delta token counts that are non-decreasing, bounded below by the
token estimate of the accumulated text at entry and (when processing
continues) bounded above by the estimate at exit, which itself never
decreases. -/
def tokensOk (st : IterState) : List StreamEvent × StepRes → Prop
  | (evs, .cont st') =>
    List.Chain' (· ≤ ·) (deltaTokens evs) ∧
    (∀ x ∈ deltaTokens evs,
      countTokens st.fullText ≤ x ∧ x ≤ countTokens st'.fullText) ∧
    countTokens st.fullText ≤ countTokens st'.fullText
  | (evs, .fin _ _) =>
    List.Chain' (· ≤ ·) (deltaTokens evs) ∧
    (∀ x ∈ deltaTokens evs, countTokens st.fullText ≤ x)

/-! ## Provenance recorder

Translated from `hashPrompt` and `recordProvenance`
(`src/dashboard-core/modules/agent/provenance.js` lines 23-67) and the
`invoke` method of the `Agent` class (`src/unnamed/part_014`).  `hashPrompt`
has three branches selected by the runtime environment: Node's
`crypto.createHash('sha256')` over the UTF-8 bytes (hex, truncated to 32
characters), a multiply-by-31 rolling hash over the UTF-8 bytes when only
`crypto.subtle` exists, and a multiply-by-33 rolling hash over the UTF-16
code units otherwise; all three are embedded. -/

/-- UTF-8 encoding of one character (`TextEncoder`). -/
def utf8BytesChar (c : Char) : List Nat :=
  let v := c.toNat
  if v < 0x80 then [v]
  else if v < 0x800 then [0xc0 + v / 64, 0x80 + v % 64]
  else if v < 0x10000 then [0xe0 + v / 4096, 0x80 + (v / 64) % 64, 0x80 + v % 64]
  else [0xf0 + v / 262144, 0x80 + (v / 4096) % 64, 0x80 + (v / 64) % 64, 0x80 + v % 64]

/-- UTF-8 bytes of a string. -/
def utf8Bytes (s : String) : List Nat := s.toList.flatMap utf8BytesChar

/-- UTF-16 code units of a string (`charCodeAt` over all indices). -/
def utf16Units (s : String) : List Nat :=
  s.toList.flatMap (fun c =>
    let v := c.toNat
    if v < 0x10000 then [v]
    else [0xd800 + (v - 0x10000) / 1024, 0xdc00 + (v - 0x10000) % 1024])

/-- Lower-case hexadecimal digit. -/
def hexDigit (n : Nat) : Char := Char.ofNat (if n < 10 then 48 + n else 87 + n)

/-- Lower-case hexadecimal digits of a number, most significant first
(empty for 0, like the digit loop behind `toString(16)` before the final
zero special case, which the padding below absorbs). -/
def hexDigits (n : Nat) : List Char :=
  if n = 0 then [] else hexDigits (n / 16) ++ [hexDigit (n % 16)]
termination_by n
decreasing_by exact Nat.div_lt_self (Nat.pos_of_ne_zero (by assumption)) (by omega)

/-- JavaScript `n.toString(16).padStart(8, '0')` for `n < 2^32`. -/
def hex8 (n : Nat) : String :=
  ⟨List.replicate (8 - (hexDigits n).length) '0' ++ hexDigits n⟩

/-- 32-bit rotate right. -/
def rotr32 (x n : Nat) : Nat := ((x >>> n) ||| (x <<< (32 - n))) % 4294967296

/-- SHA-256 Σ₀. -/
def bsig0 (x : Nat) : Nat := rotr32 x 2 ^^^ rotr32 x 13 ^^^ rotr32 x 22

/-- SHA-256 Σ₁. -/
def bsig1 (x : Nat) : Nat := rotr32 x 6 ^^^ rotr32 x 11 ^^^ rotr32 x 25

/-- SHA-256 σ₀. -/
def ssig0 (x : Nat) : Nat := rotr32 x 7 ^^^ rotr32 x 18 ^^^ (x >>> 3)

/-- SHA-256 σ₁. -/
def ssig1 (x : Nat) : Nat := rotr32 x 17 ^^^ rotr32 x 19 ^^^ (x >>> 10)

/-- SHA-256 Ch. -/
def chFn (e f g : Nat) : Nat := (e &&& f) ^^^ ((e ^^^ 0xffffffff) &&& g)

/-- SHA-256 Maj. -/
def majFn (a b c : Nat) : Nat := (a &&& b) ^^^ (a &&& c) ^^^ (b &&& c)

/-- The SHA-256 round constants (FIPS 180-4), written in decimal. -/
def sha256K : List Nat :=
  [1116352408, 1899447441, 3049323471, 3921009573, 961987163, 1508970993,
   2453635748, 2870763221, 3624381080, 310598401, 607225278, 1426881987,
   1925078388, 2162078206, 2614888103, 3248222580, 3835390401, 4022224774,
   264347078, 604807628, 770255983, 1249150122, 1555081692, 1996064986,
   2554220882, 2821834349, 2952996808, 3210313671, 3336571891, 3584528711,
   113926993, 338241895, 666307205, 773529912, 1294757372, 1396182291,
   1695183700, 1986661051, 2177026350, 2456956037, 2730485921, 2820302411,
   3259730800, 3345764771, 3516065817, 3600352804, 4094571909, 275423344,
   430227734, 506948616, 659060556, 883997877, 958139571, 1322822218,
   1537002063, 1747873779, 1955562222, 2024104815, 2227730452, 2361852424,
   2428436474, 2756734187, 3204031479, 3329325298]

/-- The SHA-256 initial hash value (FIPS 180-4), written in decimal. -/
def shaH0 : List Nat :=
  [1779033703, 3144134277, 1013904242, 2773480762, 1359893119, 2600822924,
   528734635, 1541459225]

/-- Big-endian 8-byte encoding. -/
def be64 (n : Nat) : List Nat :=
  [(n >>> 56) % 256, (n >>> 48) % 256, (n >>> 40) % 256, (n >>> 32) % 256,
   (n >>> 24) % 256, (n >>> 16) % 256, (n >>> 8) % 256, n % 256]

/-- SHA-256 message padding. -/
def padBytes (msg : List Nat) : List Nat :=
  msg ++ [0x80] ++ List.replicate ((119 - msg.length % 64) % 64) 0 ++ be64 (msg.length * 8)

/-- Group bytes into big-endian 32-bit words. -/
def bytesToWords : List Nat → List Nat
  | b0 :: b1 :: b2 :: b3 :: rest =>
    (((b0 * 256 + b1) * 256 + b2) * 256 + b3) :: bytesToWords rest
  | _ => []

/-- Extend a 16-word block to the 64-word message schedule. -/
def schedExtend : Nat → List Nat → List Nat
  | 0, w => w
  | n + 1, w =>
    let size := w.length
    let nw := (ssig1 (w.getD (size - 2) 0) + w.getD (size - 7) 0 +
               ssig0 (w.getD (size - 15) 0) + w.getD (size - 16) 0) % 4294967296
    schedExtend n (w ++ [nw])

/-- Working variables of the SHA-256 compression function. -/
structure Sha8 where
  a : Nat
  b : Nat
  c : Nat
  d : Nat
  e : Nat
  f : Nat
  g : Nat
  h : Nat

/-- Compress one 64-byte block into the running hash. -/
def shaCompressBlock (hs : List Nat) (block : List Nat) : List Nat :=
  let w := schedExtend 48 (bytesToWords block)
  let init : Sha8 :=
    ⟨hs.getD 0 0, hs.getD 1 0, hs.getD 2 0, hs.getD 3 0,
     hs.getD 4 0, hs.getD 5 0, hs.getD 6 0, hs.getD 7 0⟩
  let fin := (List.zip sha256K w).foldl
    (fun s kw =>
      let t1 := (s.h + bsig1 s.e + chFn s.e s.f s.g + kw.1 + kw.2) % 4294967296
      let t2 := (bsig0 s.a + majFn s.a s.b s.c) % 4294967296
      ⟨(t1 + t2) % 4294967296, s.a, s.b, s.c, (s.d + t1) % 4294967296, s.e, s.f, s.g⟩)
    init
  [(hs.getD 0 0 + fin.a) % 4294967296, (hs.getD 1 0 + fin.b) % 4294967296,
   (hs.getD 2 0 + fin.c) % 4294967296, (hs.getD 3 0 + fin.d) % 4294967296,
   (hs.getD 4 0 + fin.e) % 4294967296, (hs.getD 5 0 + fin.f) % 4294967296,
   (hs.getD 6 0 + fin.g) % 4294967296, (hs.getD 7 0 + fin.h) % 4294967296]

/-- Split a byte list into 64-byte chunks. -/
def chunks64 : List Nat → List (List Nat)
  | [] => []
  | b :: rest => ((b :: rest).take 64) :: chunks64 ((b :: rest).drop 64)
termination_by l => l.length
decreasing_by simp [List.length_drop]; omega

/-- The SHA-256 digest (eight 32-bit words) of a byte sequence. -/
def sha256Words (msgBytes : List Nat) : List Nat :=
  (chunks64 (padBytes msgBytes)).foldl shaCompressBlock shaH0

/-- The SHA-256 digest as a 64-character lower-case hex string. -/
def sha256Hex (msgBytes : List Nat) : String :=
  ((sha256Words msgBytes).map hex8).foldl (fun a s => a ++ s) ""

/-- Which hashing facility the environment offers: Node `crypto`,
`crypto.subtle` only, or neither. -/
inductive CryptoEnv where
  | nodeCrypto
  | webSubtle
  | noCrypto
deriving DecidableEq, Repr

/-- Definition of `hashPrompt` (`provenance.js` lines 23-40): SHA-256 hex truncated to 32
characters under Node crypto; a 31-multiplier rolling hash of the UTF-8
bytes under `crypto.subtle`; a 33-multiplier rolling hash of the UTF-16
code units otherwise.  All three are deterministic functions of the prompt
text. -/
def hashPrompt (cenv : CryptoEnv) (prompt : String) : String :=
  match cenv with
  | .nodeCrypto => (sha256Hex (utf8Bytes prompt)).take 32
  | .webSubtle => hex8 ((utf8Bytes prompt).foldl (fun h b => (h * 31 + b) % 4294967296) 0)
  | .noCrypto => hex8 ((utf16Units prompt).foldl (fun h u => (h * 33 + u) % 4294967296) 0)

/-- The result object of a model invocation, restricted to the fields
`recordProvenance` reads (`result?.usage`, `result?.truncated`) plus the
output text (which `recordProvenance` must NOT store). -/
structure InvokeResult where
  output : String
  usage : Option (List (String × Int))
  truncated : Option Bool
deriving DecidableEq, Repr

/-- A provenance ring-buffer entry (`provenance.js` lines 43-58).
`Option` fields model `null`. -/
structure ProvEntry where
  id : String
  ts : Int
  model : String
  promptHash : String
  promptBytes : Nat
  latencyMs : Int
  ok : Bool
  error : Option String
  usage : Option (List (String × Int))
  limit : Option Int
  limitRationale : Option String
  truncated : Bool
  continuationOf : Option String
deriving DecidableEq, Repr

/-- Definition of `recordProvenance` (`provenance.js` lines 41-67) restricted to the
entry it constructs.  `ts` is `Date.now()` and `randSuffix` the
`Math.random()`-derived id suffix, both passed explicitly.  `error` is the
message string `String(error.message || error)` of the caught error, when
one was passed.  The `|| null` falsy checks on `limitMeta` fields and
`continuationOf` are modelled explicitly. -/
def recordProvenance (cenv : CryptoEnv) (ts : Int) (randSuffix : String)
    (model prompt : String) (result : Option InvokeResult) (latencyMs : Int)
    (error : Option String) (limitMeta : Option (Int × String))
    (continuationOf : Option String) : ProvEntry :=
  { id := toString ts ++ "-" ++ randSuffix
    ts := ts
    model := model
    promptHash := hashPrompt cenv prompt
    promptBytes := prompt.utf8ByteSize
    latencyMs := latencyMs
    ok := error.isNone
    error := error
    usage := result.bind (fun r => r.usage)
    limit := match limitMeta with
      | some lm => if lm.1 = 0 then none else some lm.1
      | none => none
    limitRationale := match limitMeta with
      | some lm => if lm.2 = "" then none else some lm.2
      | none => none
    truncated := match result with
      | some r => r.truncated = some true
      | none => false
    continuationOf := match continuationOf with
      | some c => if c = "" then none else some c
      | none => none }

/-- The abstract outcome of `invokeAny` inside `Agent.invoke`: a result
object, or a thrown error carrying a message. -/
inductive InvokeOutcome where
  | ok (r : InvokeResult)
  | err (message : String)
deriving DecidableEq, Repr

/-- Embedding of `Agent.invoke` (`src/unnamed/part_014` lines 23-40) with default
(no-op) hooks, restricted to its return/throw value and the provenance
records it appends: on success exactly one record with the result, on
error exactly one record with the error; both paths hash the prompt and
never store it. `startTs` is `Date.now()` at entry and `endTs` at
recording time (`latencyMs = endTs - startTs`). -/
def agentInvoke (cenv : CryptoEnv) (startTs endTs : Int) (randSuffix : String)
    (model prompt : String) (outcome : InvokeOutcome) :
    Except String InvokeResult × List ProvEntry :=
  match outcome with
  | .ok r =>
    (.ok r,
      [recordProvenance cenv endTs randSuffix model prompt (some r) (endTs - startTs)
        none none none])
  | .err m =>
    (.error m,
      [recordProvenance cenv endTs randSuffix model prompt none (endTs - startTs)
        (some m) none none])

/-! ## Lemmas: the naive tokenizer is a left-to-right run count -/

theorem splitKeep_ne_nil (p : Char → Bool) (l : List Char) : splitKeep p l ≠ [] := by
  cases l with
  | nil => simp [splitKeep]
  | cons c cs => by_cases h : p c <;> simp [splitKeep, h]

theorem splitRuns_ne_nil (p : Char → Bool) (l : List Char) : splitRuns p l ≠ [] := by
  cases l with
  | nil => simp [splitRuns]
  | cons c cs =>
    by_cases h : p c
    · by_cases h2 : headSep p cs <;>
        simp [splitRuns, h, h2, splitRuns_ne_nil p cs]
    · simp [splitRuns, h]

theorem splitKeep_headI_isEmpty (p : Char → Bool) (l : List Char) :
    (splitKeep p l).headI.isEmpty = !headNoSep p l := by
  cases l with
  | nil => simp [splitKeep, headNoSep]
  | cons c cs => by_cases h : p c <;> simp [splitKeep, headNoSep, h]

theorem splitRuns_headI_sep (p : Char → Bool) :
    ∀ cs : List Char, headSep p cs = true → (splitRuns p cs).headI = [] := by
  intro cs
  induction cs with
  | nil => simp [headSep]
  | cons d ds ih =>
    intro h
    have hd : p d = true := by simpa [headSep] using h
    by_cases h2 : headSep p ds
    · simpa [splitRuns, hd, h2] using ih h2
    · simp [splitRuns, hd, h2]

theorem splitRuns_headNoSep (cs : List Char) :
    headNoSep naivePunct ((splitRuns jsWhitespace cs).headI) = headPlain cs := by
  cases cs with
  | nil => simp [splitRuns, headNoSep, headPlain]
  | cons d ds =>
    by_cases h : jsWhitespace d
    · by_cases h2 : headSep jsWhitespace ds
      · have := splitRuns_headI_sep jsWhitespace (d :: ds) (by simp [headSep, h])
        simp [this, headNoSep, headPlain, h]
      · simp [splitRuns, h, h2, headNoSep, headPlain]
    · simp [splitRuns, h, headNoSep, headPlain]

theorem filter_length_head (q : List Char → Bool) (r : List (List Char)) (h : r ≠ []) :
    (r.filter q).length =
      (if q r.headI then 1 else 0) + ((r.tail.filter q).length) := by
  cases r with
  | nil => exact absurd rfl h
  | cons a t => by_cases hq : q a <;> simp [List.filter_cons, hq, Nat.add_comm]

theorem pCountFold_false_eq (w : List Char) :
    pCountFold false w =
      pCountFold true w + (if headNoSep naivePunct w then 1 else 0) := by
  cases w with
  | nil => simp [pCountFold, headNoSep]
  | cons c cs => by_cases h : naivePunct c <;> simp [pCountFold, headNoSep, h, Nat.add_comm]

theorem innerCount_eq (w : List Char) : innerCount w = pCountFold false w := by
  induction w with
  | nil => simp [innerCount, splitKeep, pCountFold]
  | cons c cs ih =>
    by_cases hc : naivePunct c
    · have h1 : innerCount (c :: cs) = 1 + innerCount cs := by
        simp [innerCount, splitKeep, hc, List.filter_cons, Nat.add_comm]
      rw [h1, ih]
      simp [pCountFold, hc]
    · have h1 : innerCount (c :: cs) =
          1 + ((splitKeep naivePunct cs).tail.filter (fun x => !x.isEmpty)).length := by
        simp [innerCount, splitKeep, hc, List.filter_cons, Nat.add_comm]
      have h2 : innerCount cs =
          (if headNoSep naivePunct cs then 1 else 0) +
            ((splitKeep naivePunct cs).tail.filter (fun x => !x.isEmpty)).length := by
        have := filter_length_head (fun x => !x.isEmpty) (splitKeep naivePunct cs)
          (splitKeep_ne_nil naivePunct cs)
        simpa [innerCount, splitKeep_headI_isEmpty] using this
      have h3 := pCountFold_false_eq cs
      have h4 : pCountFold false (c :: cs) = 1 + pCountFold true cs := by
        simp [pCountFold, hc]
      rw [h1, h4]
      rw [h2, h3] at ih
      by_cases hh : headNoSep naivePunct cs <;> simp [hh] at ih ⊢ <;> omega

theorem flat_filter_len (frags : List (List Char)) :
    (((frags.flatMap
        (fun p => (splitKeep naivePunct p).filter (fun x => !x.isEmpty))).filter
        (fun x => !x.isEmpty)).length) = (frags.map innerCount).sum := by
  induction frags with
  | nil => simp
  | cons w ws ih =>
    have hidem :
        (((splitKeep naivePunct w).filter (fun x => !x.isEmpty)).filter
          (fun x => !x.isEmpty)) =
          (splitKeep naivePunct w).filter (fun x => !x.isEmpty) := by
      induction splitKeep naivePunct w with
      | nil => simp
      | cons a t iht => by_cases ha : a.isEmpty <;> simp [List.filter_cons, ha, iht]
    simp only [List.flatMap_cons, List.filter_append, List.length_append, ih, hidem,
      List.map_cons, List.sum_cons, innerCount]

theorem naiveCountList_eq_sum (l : List Char) :
    naiveCountList l = ((splitRuns jsWhitespace l).map innerCount).sum := by
  simpa [naiveCountList] using flat_filter_len (splitRuns jsWhitespace l)

theorem countRunsFold_false_eq (cs : List Char) :
    countRunsFold false cs =
      countRunsFold true cs + (if headPlain cs then 1 else 0) := by
  cases cs with
  | nil => simp [countRunsFold, headPlain]
  | cons c t =>
    by_cases hw : jsWhitespace c
    · simp [countRunsFold, headPlain, hw]
    · by_cases hp : naivePunct c <;> simp [countRunsFold, headPlain, hw, hp, Nat.add_comm]

theorem naiveCountList_eq_fold (l : List Char) :
    naiveCountList l = countRunsFold false l := by
  induction l with
  | nil => simp [naiveCountList, splitRuns, splitKeep, countRunsFold]
  | cons c cs ih =>
    rw [naiveCountList_eq_sum] at ih ⊢
    by_cases hw : jsWhitespace c
    · have hsum : ((splitRuns jsWhitespace (c :: cs)).map innerCount).sum =
          ((splitRuns jsWhitespace cs).map innerCount).sum := by
        by_cases h2 : headSep jsWhitespace cs
        · simp [splitRuns, hw, h2]
        · simp [splitRuns, hw, h2, innerCount, splitKeep]
      rw [hsum, ih]
      simp [countRunsFold, hw]
    · -- splitRuns (c :: cs) = (c :: g) :: t with g :: t = splitRuns cs
      have hne := splitRuns_ne_nil jsWhitespace cs
      have hcons : splitRuns jsWhitespace cs =
          (splitRuns jsWhitespace cs).headI :: (splitRuns jsWhitespace cs).tail := by
        cases hr : splitRuns jsWhitespace cs with
        | nil => exact absurd hr hne
        | cons a t => simp
      have hsum : ((splitRuns jsWhitespace (c :: cs)).map innerCount).sum =
          innerCount (c :: (splitRuns jsWhitespace cs).headI) +
            (((splitRuns jsWhitespace cs).tail.map innerCount).sum) := by
        simp [splitRuns, hw]
      have hsumcs : ((splitRuns jsWhitespace cs).map innerCount).sum =
          innerCount ((splitRuns jsWhitespace cs).headI) +
            (((splitRuns jsWhitespace cs).tail.map innerCount).sum) := by
        conv_lhs => rw [hcons]
        simp
      by_cases hp : naivePunct c
      · -- punctuation head: one extra fragment
        have hstep : innerCount (c :: (splitRuns jsWhitespace cs).headI) =
            1 + innerCount ((splitRuns jsWhitespace cs).headI) := by
          rw [innerCount_eq, innerCount_eq]
          simp [pCountFold, hp]
        rw [hsum, hstep]
        rw [hsumcs] at ih
        simp only [countRunsFold, hw, hp, if_false, if_true, Bool.false_eq_true]
        omega
      · -- plain head: extends (or starts) a run
        have hstep : innerCount (c :: (splitRuns jsWhitespace cs).headI) +
              (if headNoSep naivePunct ((splitRuns jsWhitespace cs).headI) then 1 else 0) =
            1 + innerCount ((splitRuns jsWhitespace cs).headI) := by
          rw [innerCount_eq, innerCount_eq]
          have := pCountFold_false_eq ((splitRuns jsWhitespace cs).headI)
          simp only [pCountFold, hp, if_false, Bool.false_eq_true]
          omega
        have hlink := splitRuns_headNoSep cs
        have hfold := countRunsFold_false_eq cs
        rw [hsum]
        rw [hsumcs] at ih
        have hfoldc : countRunsFold false (c :: cs) = 1 + countRunsFold true cs := by
          simp [countRunsFold, hw, hp]
        rw [hfoldc]
        rw [hlink] at hstep
        by_cases hh : headPlain cs <;> simp [hh] at hstep hfold <;> omega

theorem countRunsFold_nil (b : Bool) : countRunsFold b [] = 0 := rfl

theorem flagAfter_nil (b : Bool) : flagAfter b [] = b := rfl

theorem countRunsFold_cons (b : Bool) (c : Char) (cs : List Char) :
    countRunsFold b (c :: cs) =
      if jsWhitespace c then countRunsFold false cs
      else if naivePunct c then 1 + countRunsFold false cs
      else (if b then 0 else 1) + countRunsFold true cs := rfl

theorem flagAfter_cons (b : Bool) (c : Char) (cs : List Char) :
    flagAfter b (c :: cs) =
      flagAfter (if jsWhitespace c then false else if naivePunct c then false else true) cs :=
  rfl

theorem countRunsFold_append (m : List Char) :
    ∀ (l : List Char) (b : Bool),
      countRunsFold b (l ++ m) = countRunsFold b l + countRunsFold (flagAfter b l) m := by
  intro l
  induction l with
  | nil =>
    intro b
    rw [countRunsFold_nil, flagAfter_nil, List.nil_append, Nat.zero_add]
  | cons c cs ih =>
    intro b
    rw [List.cons_append, countRunsFold_cons, countRunsFold_cons, flagAfter_cons]
    by_cases hw : jsWhitespace c
    · simp only [hw, if_true, ih]
    · by_cases hp : naivePunct c
      · simp only [hw, hp, if_true, if_false, Bool.false_eq_true, ih]
        omega
      · simp only [hw, hp, if_false, Bool.false_eq_true, ih true]
        omega

theorem naiveCountList_mono (l m : List Char) :
    naiveCountList l ≤ naiveCountList (l ++ m) := by
  rw [naiveCountList_eq_fold, naiveCountList_eq_fold, countRunsFold_append]
  omega

/-- Monotonicity: `naiveCount` never decreases when text is appended. -/
theorem naiveCount_mono (s t : String) : naiveCount s ≤ naiveCount (s ++ t) := by
  by_cases hs : s = ""
  · simp [hs, naiveCount]
  · have hst : s ++ t ≠ "" := by
      intro h
      apply hs
      have : (s ++ t).data = [] := by rw [h]
      rw [String.data_append] at this
      have : s.data = [] := by
        cases hd : s.data with
        | nil => rfl
        | cons a l => rw [hd] at this; simp at this
      cases s with
      | mk d => simp at this; simp [this]
    rw [naiveCount, naiveCount, if_neg hs, if_neg hst]
    have : (s ++ t).toList = s.toList ++ t.toList := by
      simp [String.toList, String.data_append]
    rw [this]
    exact naiveCountList_mono s.toList t.toList

/-! ## Lemmas: circuit breaker -/

theorem circuitReport_false_of_open (st : CBState) (t : Int) (h : st.isOpen = true) :
    circuitReport st false t = { st with failures := st.failures + 1 } := by
  simp [circuitReport, h]

theorem reportFailures_of_open (ts : List Int) :
    ∀ st : CBState, st.isOpen = true →
      reportFailures st ts =
        { st with failures := st.failures + ts.length } := by
  induction ts with
  | nil =>
    intro st _
    show st = _
    cases st
    simp
  | cons t ts ih =>
    intro st h
    show reportFailures (circuitReport st false t) ts = _
    rw [circuitReport_false_of_open st t h, ih _ (by simp [h])]
    simp
    omega

theorem reportFailures_opens (ts : List Int) :
    ∀ st : CBState, st.isOpen = false →
      st.failures < st.threshold → st.threshold ≤ st.failures + ts.length →
      (reportFailures st ts).isOpen = true ∧
      (reportFailures st ts).openedAt = ts.getD (st.threshold - st.failures - 1) 0 ∧
      (reportFailures st ts).cooldownMs = st.cooldownMs := by
  induction ts with
  | nil =>
    intro st _ h1 h2
    simp at h2
    omega
  | cons t ts ih =>
    intro st hopen h1 h2
    have hstep : reportFailures st (t :: ts) = reportFailures (circuitReport st false t) ts :=
      rfl
    rw [hstep]
    by_cases hth : st.threshold ≤ st.failures + 1
    · have hopened : circuitReport st false t =
          { st with failures := st.failures + 1, isOpen := true, openedAt := t } := by
        simp [circuitReport, hopen, hth]
      rw [hopened, reportFailures_of_open ts _ (by simp)]
      have hidx : st.threshold - st.failures - 1 = 0 := by omega
      rw [hidx]
      exact ⟨rfl, rfl, rfl⟩
    · have hclosed : circuitReport st false t = { st with failures := st.failures + 1 } := by
        simp [circuitReport, hth]
      rw [hclosed]
      have hrec := ih { st with failures := st.failures + 1 } (by simpa using hopen)
        (by simp only; omega) (by simp only [List.length_cons] at h2; simp only; omega)
      refine ⟨hrec.1, ?_, hrec.2.2⟩
      have hidx : st.threshold - st.failures - 1 = (st.threshold - (st.failures + 1) - 1) + 1 := by
        omega
      rw [hidx, List.getD_cons_succ]
      simpa using hrec.2.1

/-- Claim C3: starting from CLOSED with zero recorded failures, at least
`failureThreshold` consecutive `reportOutcome(false)` calls (no intervening
success) open the breaker, record the open timestamp (the time of the
threshold-th failure), and every `shouldBlock()` call made before
`cooldownMs` has elapsed since that timestamp returns `true` (leaving the
state unchanged). -/
theorem C3_breaker_opens_and_blocks (st : CBState) (ts : List Int)
    (hclosed : st.isOpen = false) (hzero : st.failures = 0)
    (hth : 1 ≤ st.threshold) (hlen : st.threshold ≤ ts.length) :
    (reportFailures st ts).isOpen = true ∧
    (reportFailures st ts).openedAt = ts.getD (st.threshold - 1) 0 ∧
    ∀ now : Int, now - ts.getD (st.threshold - 1) 0 < st.cooldownMs →
      circuitShouldBlock (reportFailures st ts) now = (true, reportFailures st ts) := by
  have h := reportFailures_opens ts st hclosed (by omega) (by omega)
  rw [hzero, Nat.sub_zero] at h
  refine ⟨h.1, h.2.1, ?_⟩
  intro now hnow
  have hlt : ¬((reportFailures st ts).cooldownMs < now - (reportFailures st ts).openedAt) := by
    rw [h.2.2, h.2.1]
    omega
  simp [circuitShouldBlock, h.1, hlt]

/-- Witness for C3 at a concrete input: threshold 2, cooldown 1000,
failures at times 10, 20, 30; the breaker opens at time 20 and still
blocks at time 500. -/
theorem C3_breaker_opens_and_blocks_witness :
    (reportFailures ⟨false, 0, 0, 1000, 2, false⟩ [10, 20, 30]).isOpen = true ∧
    (reportFailures ⟨false, 0, 0, 1000, 2, false⟩ [10, 20, 30]).openedAt = 20 ∧
    circuitShouldBlock (reportFailures ⟨false, 0, 0, 1000, 2, false⟩ [10, 20, 30]) 500 =
      (true, reportFailures ⟨false, 0, 0, 1000, 2, false⟩ [10, 20, 30]) := by
  have h := C3_breaker_opens_and_blocks ⟨false, 0, 0, 1000, 2, false⟩ [10, 20, 30]
    rfl rfl (by decide) (by decide)
  exact ⟨h.1, by simpa using h.2.1, by simpa using h.2.2 500 (by decide)⟩

/-- Claim C1: the code at the failing scenario.  A breaker with threshold 1
and cooldown 1000ms opens at time 0; at time 2000 the cooldown has elapsed
and `shouldBlock` permits the half-open probe; the probe outcome is
reported as a failure at time 2001.  The claim (and the repository's own
circuit-breaker documentation) says this re-opens the breaker with
`openedAt` reset to 2001 so that `shouldBlock` returns `true` until about
time 3001 — but `circuitReport(false)` only resets `openedAt` under
`!cbState.open`, which is false here, so `openedAt` stays 0 and
`shouldBlock` at time 2002 returns `false` again. -/
theorem C1_failed_probe_keeps_stale_openedAt :
    (circuitShouldBlock (circuitReport ⟨false, 0, 0, 1000, 1, false⟩ false 0) 2000).1
        = false ∧
    (circuitReport
        (circuitShouldBlock (circuitReport ⟨false, 0, 0, 1000, 1, false⟩ false 0) 2000).2
        false 2001).openedAt = 0 ∧
    (circuitReport
        (circuitShouldBlock (circuitReport ⟨false, 0, 0, 1000, 1, false⟩ false 0) 2000).2
        false 2001).isOpen = true ∧
    (circuitShouldBlock
        (circuitReport
          (circuitShouldBlock (circuitReport ⟨false, 0, 0, 1000, 1, false⟩ false 0) 2000).2
          false 2001)
        2002).1 = false := by
  decide

/-! ## Lemmas: token bucket -/

theorem takeToken_no_refill (st : RLState) (now : Int)
    (h : now - st.lastRefill < st.refillMs) :
    takeToken st now =
      if 0 < st.tokens then (true, { st with tokens := st.tokens - 1 }) else (false, st) := by
  have hno : ¬(st.refillMs ≤ now - st.lastRefill) := by omega
  simp [takeToken, hno]

theorem runTakeToken_window (ts : List Int) :
    ∀ st : RLState, (∀ t ∈ ts, t - st.lastRefill < st.refillMs) →
      (runTakeToken st ts).1 =
        (List.range ts.length).map (fun i => decide (i < st.tokens)) := by
  induction ts with
  | nil => intro st _; rfl
  | cons t ts ih =>
    intro st hwin
    have hfirst := takeToken_no_refill st t (hwin t (by simp))
    by_cases hp : 0 < st.tokens
    · have h1 : takeToken st t = (true, { st with tokens := st.tokens - 1 }) := by
        rw [hfirst, if_pos hp]
      have h2 : runTakeToken st (t :: ts) =
          ((takeToken st t).1 :: (runTakeToken (takeToken st t).2 ts).1,
            (runTakeToken (takeToken st t).2 ts).2) := rfl
      rw [h2, h1]
      have hrec := ih { st with tokens := st.tokens - 1 }
        (fun u hu => by simpa using hwin u (by simp [hu]))
      rw [hrec]
      have hrange : List.range (ts.length + 1) = 0 :: (List.range ts.length).map (· + 1) :=
        List.range_succ_eq_map ts.length
      simp only [List.length_cons, hrange, List.map_cons, List.map_map]
      refine congrArg₂ _ (by simpa using hp) ?_
      apply List.map_congr_left
      intro i _
      show decide (i < st.tokens - 1) = decide (i + 1 < st.tokens)
      by_cases hi : i + 1 < st.tokens
      · simp [hi]; omega
      · simp [hi]; omega
    · have hz : st.tokens = 0 := by omega
      have h1 : takeToken st t = (false, st) := by
        rw [hfirst, if_neg hp]
      have h2 : runTakeToken st (t :: ts) =
          ((takeToken st t).1 :: (runTakeToken (takeToken st t).2 ts).1,
            (runTakeToken (takeToken st t).2 ts).2) := rfl
      rw [h2, h1]
      have hrec := ih st (fun u hu => hwin u (by simp [hu]))
      rw [hrec]
      have hrange : List.range (ts.length + 1) = 0 :: (List.range ts.length).map (· + 1) :=
        List.range_succ_eq_map ts.length
      simp only [List.length_cons, hrange, List.map_cons, List.map_map]
      refine congrArg₂ _ (by simp [hz]) ?_
      apply List.map_congr_left
      intro i _
      simp [hz]

theorem range_map_lt_replicate (n m : Nat) (h : n ≤ m) :
    (List.range n).map (fun i => decide (i < m)) = List.replicate n true := by
  induction n with
  | zero => simp
  | succ k ihk =>
    rw [List.range_succ, List.map_append, ihk (by omega), List.replicate_succ']
    simp
    omega

/-- Claim C7: within a single refill window a full bucket of capacity `c`
yields exactly `c` successful `tryAcquire` results followed by a failure on
the `(c+1)`-th call; and once at least `refillIntervalMs` has elapsed since
the last refill, the next call (on a bucket of positive capacity) refills
to full capacity, decrements, and returns true with the refill timestamp
updated. -/
theorem C7_tokenBucket_window_and_refill (st : RLState) (ts : List Int)
    (hfull : st.tokens = st.capacity) (hlen : ts.length = st.capacity + 1)
    (hwin : ∀ t ∈ ts, t - st.lastRefill < st.refillMs) :
    (runTakeToken st ts).1 = List.replicate st.capacity true ++ [false] ∧
    ∀ (st2 : RLState) (now : Int), 1 ≤ st2.capacity →
      st2.refillMs ≤ now - st2.lastRefill →
      takeToken st2 now =
        (true, { st2 with tokens := st2.capacity - 1, lastRefill := now }) := by
  constructor
  · rw [runTakeToken_window ts st hwin, hlen, hfull]
    rw [List.range_succ, List.map_append,
      range_map_lt_replicate st.capacity st.capacity (le_refl _)]
    simp
  · intro st2 now hcap hel
    have hpos : 0 < st2.capacity := hcap
    simp [takeToken, hel, hpos]

/-- Witness for C7: capacity 2, refill window 1000ms starting at 0; calls
at times 1, 2, 3 give `[true, true, false]`, and a bucket emptied at
`lastRefill = 0` refills and succeeds at time 1000. -/
theorem C7_tokenBucket_witness :
    (runTakeToken ⟨2, 1000, 2, 0⟩ [1, 2, 3]).1 = [true, true, false] ∧
    takeToken ⟨2, 1000, 0, 0⟩ 1000 = (true, ⟨2, 1000, 1, 1000⟩) := by
  have h := C7_tokenBucket_window_and_refill ⟨2, 1000, 2, 0⟩ [1, 2, 3] rfl rfl
    (by decide)
  exact ⟨by simpa using h.1, by simpa using h.2 ⟨2, 1000, 0, 0⟩ 1000 (by decide) (by decide)⟩

/-! ## Claims about the retry engine -/

/-- Claim C6 counterexample: a 429 response carrying `Retry-After: 0` parses
to 0 milliseconds, but `if (parsed)` treats 0 as falsy, so the computed
exponential delay (137 here) is used instead of the parsed value capped at
`maxDelayMs` (which would be `min 0 4000 = 0`).  The claim as stated —
that the wait always equals the parsed header value capped at
`maxDelayMs` — is therefore false. -/
theorem C6_retryAfter_zero_counterexample :
    parseRetryAfter (fun _ => none) 0 "0" = some 0 ∧
    retryDelayFor 137 4000 429 (some "0") (fun _ => none) 0 = 137 ∧
    (137 : Int) ≠ min 0 4000 := by
  decide

/-- Claim C6 amended: during the retry loop, a 429 response carrying a
`Retry-After` header whose parsed value is positive (an integer value is
seconds times 1000; an HTTP-date yields the milliseconds until that date)
makes the wait equal that parsed value capped at `maxDelayMs`, overriding
the computed exponential delay; a header parsing to 0 or unparseable
leaves the computed delay in place.  In particular `Retry-After: 2` yields
exactly 2000ms whenever `2000 ≤ maxDelayMs`. -/
theorem C6_retryAfter_positive_overrides (computed maxDelay : Int) (status : Nat)
    (ra : String) (dateParse : String → Option Int) (now p : Int)
    (hs : status = 429) (hp : parseRetryAfter dateParse now ra = some p) (hpos : 0 < p) :
    retryDelayFor computed maxDelay status (some ra) dateParse now = min p maxDelay ∧
    (∀ computed2 maxDelay2 : Int, 2000 ≤ maxDelay2 →
      retryDelayFor computed2 maxDelay2 429 (some "2") dateParse now = 2000) := by
  constructor
  · have hnz : p ≠ 0 := by omega
    simp [retryDelayFor, hs, hp, hnz]
  · intro computed2 maxDelay2 hcap
    have h2 : parseRetryAfter dateParse now "2" = some 2000 := rfl
    simp [retryDelayFor, h2]
    omega

/-- Witness for C6 (amended): `Retry-After: 2` with computed delay 999 and
`maxDelayMs = 4000` waits 2000ms. -/
theorem C6_retryAfter_witness :
    retryDelayFor 999 4000 429 (some "2") (fun _ => none) 0 = 2000 ∧
    retryDelayFor 321 2500 429 (some "2") (fun _ => none) 0 = 2000 := by
  have h := C6_retryAfter_positive_overrides 999 4000 429 "2" (fun _ => none) 0 2000
    rfl rfl (by decide)
  exact ⟨by simpa using h.1, h.2 321 2500 (by decide)⟩

/-! ## Claims about the gating order of `azureInvokeChat` -/

/-- Claim C2 counterexample: with everything configured, a closed breaker and
a full bucket, the observable action order is credential resolution first,
then the circuit-breaker check, then the rate-limiter check, then the
network attempt — refuting both parts of the claim: the rate limiter is
NOT checked before the circuit breaker (the circuit check strictly
precedes the rate check in the trace), and auth headers are resolved
BEFORE the local gates rather than after them; indeed with an open breaker
the trace still begins with credential resolution even though the call is
rejected (and in AAD mode that resolution itself performs a token-endpoint
network call). -/
theorem C2_gatingOrder_counterexample :
    (azureInvokeChatGate true true ⟨false, 0, 0, 15000, 5, false⟩ ⟨30, 60000, 30, 0⟩ 1000).1 =
      [.resolveAuth, .circuitCheck, .rateCheck, .fetchAttempt] ∧
    ((azureInvokeChatGate true true ⟨false, 0, 0, 15000, 5, false⟩ ⟨30, 60000, 30, 0⟩ 1000).1.indexOf
        GateEv.circuitCheck <
      (azureInvokeChatGate true true ⟨false, 0, 0, 15000, 5, false⟩ ⟨30, 60000, 30, 0⟩ 1000).1.indexOf
        GateEv.rateCheck) ∧
    azureInvokeChatGate true true ⟨true, 5, 0, 15000, 5, false⟩ ⟨30, 60000, 30, 0⟩ 1000 =
      ([.resolveAuth, .circuitCheck], .error .circuitOpen) :=
  ⟨rfl, by decide, rfl⟩

/-- Claim C2 amended: for every configured chat invocation the gating order
is: credential resolver first, then circuit breaker, then rate limiter,
then the network attempt loop.  A breaker rejection stops after the
circuit check and a bucket rejection after the rate check, so neither ever
reaches a chat-completion network attempt (`fetchAttempt` is absent from
the trace) — though credential resolution has already happened by then. -/
theorem C2_gatingOrder_amended (cb : CBState) (rl : RLState) (now : Int) :
    (azureInvokeChatGate true true cb rl now).1.head? = some .resolveAuth ∧
    ((circuitShouldBlock cb now).1 = true →
      azureInvokeChatGate true true cb rl now =
        ([.resolveAuth, .circuitCheck], .error .circuitOpen)) ∧
    ((circuitShouldBlock cb now).1 = false → (takeToken rl now).1 = false →
      azureInvokeChatGate true true cb rl now =
        ([.resolveAuth, .circuitCheck, .rateCheck], .error .rateLimited)) ∧
    ((circuitShouldBlock cb now).1 = false → (takeToken rl now).1 = true →
      (azureInvokeChatGate true true cb rl now).1 =
        [.resolveAuth, .circuitCheck, .rateCheck, .fetchAttempt]) ∧
    ∀ e : GateErr, (azureInvokeChatGate true true cb rl now).2 = .error e →
      GateEv.fetchAttempt ∉ (azureInvokeChatGate true true cb rl now).1 := by
  by_cases hb : (circuitShouldBlock cb now).1 = true
  · refine ⟨?_, ?_, ?_, ?_, ?_⟩ <;>
      simp [azureInvokeChatGate, fetchWithRetryGate, hb]
  · have hb' : (circuitShouldBlock cb now).1 = false := by
      cases h : (circuitShouldBlock cb now).1
      · rfl
      · exact absurd h hb
    by_cases ht : (takeToken rl now).1 = true
    · refine ⟨?_, ?_, ?_, ?_, ?_⟩ <;>
        simp [azureInvokeChatGate, fetchWithRetryGate, hb', ht]
    · have ht' : (takeToken rl now).1 = false := by
        cases h : (takeToken rl now).1
        · rfl
        · exact absurd h ht
      refine ⟨?_, ?_, ?_, ?_, ?_⟩ <;>
        simp [azureInvokeChatGate, fetchWithRetryGate, hb', ht']

/-- Witness for C2 (amended): an open breaker (opened at time 0, cooldown
15000ms, checked at time 1000) rejects after `resolveAuth` and
`circuitCheck`, with no `fetchAttempt`. -/
theorem C2_gatingOrder_witness :
    azureInvokeChatGate true true ⟨true, 5, 0, 15000, 5, false⟩ ⟨30, 60000, 0, 999⟩ 1000 =
      ([.resolveAuth, .circuitCheck], .error .circuitOpen) :=
  (C2_gatingOrder_amended ⟨true, 5, 0, 15000, 5, false⟩ ⟨30, 60000, 0, 999⟩ 1000).2.1
    (by decide)

/-! ## Claim about the streaming limit policy -/

/-- Claim C5: for every prompt and configuration, `evaluateStreamingLimit`
computes exactly the limit the claim describes: start from the configured
base (default 800); if the trimmed prompt is shorter than 40 characters
(UTF-16 units), replace the limit with `⌊limit·0.75⌋`; then, if the prompt
case-insensitively contains one of the positive keywords, replace it with
`⌊limit·1.25⌋` applied to the current (possibly already reduced) value;
then cap at the configured hard maximum (default 2000) and finally raise
any smaller result to 100. -/
theorem C5_streamingLimit_as_claimed (base hardMax : Int) (prompt : String) :
    (evaluateStreamingLimit base hardMax prompt).1 =
      claimedStreamingLimit base hardMax prompt := by
  unfold evaluateStreamingLimit claimedStreamingLimit
  by_cases hshort : utf16Length (jsTrim prompt) < 40 <;>
    by_cases hkw : positiveKeywords.any
        (fun k => containsSub (strToLower (jsTrim prompt)) k) = true <;>
      simp only [hshort, hkw, if_true, if_false, Bool.false_eq_true] <;>
      split <;> split <;> omega

/-! ## Lemmas: stream parser -/

theorem countTokens_mono (s t : String) : countTokens s ≤ countTokens (s ++ t) :=
  naiveCount_mono s t

theorem deltaTokens_append (l1 l2 : List StreamEvent) :
    deltaTokens (l1 ++ l2) = deltaTokens l1 ++ deltaTokens l2 := by
  induction l1 with
  | nil => rfl
  | cons e rest ih => cases e <;> simp [deltaTokens, ih]

theorem mem_of_head?_eq {α : Type} {l : List α} {x : α} (h : l.head? = some x) : x ∈ l := by
  cases l with
  | nil => simp at h
  | cons a t =>
    simp at h
    simp [h]

theorem mem_of_getLast?_eq {α : Type} {l : List α} {x : α} (h : l.getLast? = some x) :
    x ∈ l := by
  have hx : x ∈ l.getLast? := by simp [Option.mem_def, h]
  obtain ⟨hne, rfl⟩ := List.mem_getLast?_eq_getLast hx
  exact List.getLast_mem hne

/-- Final aggregates reached through `[DONE]` or through the limit have the
expected optional fields. -/
theorem processDataLine_fin_shape (cfg : StreamCfg) (st : IterState) (dl : String)
    {k : EndKind} {f : StreamFinal} (h : (processDataLine cfg st dl).2 = .fin k f) :
    (k = .doneSentinel →
      f.truncated = none ∧ f.limit = none ∧ f.rationale = none) ∧
    (k = .limitHit → f.truncated = some true) := by
  unfold processDataLine at h
  split at h
  · -- `[DONE]`
    simp at h
    obtain ⟨hk, hf⟩ := h
    subst hk
    subst hf
    exact ⟨fun _ => ⟨rfl, rfl, rfl⟩, fun hl => by simp at hl⟩
  · -- JSON payload (or parse failure)
    split at h
    · -- parse failure: continue
      simp at h
    · -- parsed object
      split at h
      · -- no delta field
        simp at h
      · -- delta present
        split at h
        · -- empty (falsy) delta
          simp at h
        · dsimp only at h
          split at h
          · -- limit reached
            simp at h
            obtain ⟨hk, hf⟩ := h
            subst hk
            subst hf
            exact ⟨fun hl => by simp at hl, fun _ => rfl⟩
          · -- ordinary delta event
            simp at h

theorem processLines_fin_shape (cfg : StreamCfg) :
    ∀ (ls : List String) (st : IterState) {k : EndKind} {f : StreamFinal},
      (processLines cfg st ls).2 = .fin k f →
      (k = .doneSentinel →
        f.truncated = none ∧ f.limit = none ∧ f.rationale = none) ∧
      (k = .limitHit → f.truncated = some true) := by
  intro ls
  induction ls with
  | nil =>
    intro st k f h
    simp [processLines] at h
  | cons dl rest ih =>
    intro st k f h
    cases hpd : processDataLine cfg st dl with
    | mk evs r =>
      cases r with
      | cont st' =>
        have hred : (processLines cfg st (dl :: rest)).2 =
            (processLines cfg st' rest).2 := by
          simp [processLines, hpd]
        rw [hred] at h
        exact ih st' h
      | fin k0 f0 =>
        have hred : (processLines cfg st (dl :: rest)).2 = .fin k0 f0 := by
          simp [processLines, hpd]
        rw [hred] at h
        have hk : k0 = k := by
          have := congrArg
            (fun r => match r with | StepRes.fin k _ => k | .cont _ => k0) h
          simpa using this
        have hf : f0 = f := by
          have := congrArg
            (fun r => match r with | StepRes.fin _ f => f | .cont _ => f0) h
          simpa using this
        subst hk
        subst hf
        exact processDataLine_fin_shape cfg st dl (by rw [hpd])

theorem processEvent_fin_shape (cfg : StreamCfg) (st : IterState) (raw : String)
    {k : EndKind} {f : StreamFinal} (h : (processEvent cfg st raw).2 = .fin k f) :
    (k = .doneSentinel →
      f.truncated = none ∧ f.limit = none ∧ f.rationale = none) ∧
    (k = .limitHit → f.truncated = some true) := by
  unfold processEvent at h
  by_cases hskip : cfg.maxEventBytes ≠ 0 ∧ cfg.maxEventBytes < raw.utf8ByteSize
  · rw [if_pos hskip] at h
    simp at h
  · rw [if_neg hskip] at h
    exact processLines_fin_shape cfg (dataLines raw) st h

theorem processEvents_fin_shape (cfg : StreamCfg) :
    ∀ (events : List String) (st : IterState) {k : EndKind} {f : StreamFinal},
      (processEvents cfg st events).2 = .fin k f →
      (k = .doneSentinel →
        f.truncated = none ∧ f.limit = none ∧ f.rationale = none) ∧
      (k = .limitHit → f.truncated = some true) := by
  intro events
  induction events with
  | nil =>
    intro st k f h
    simp [processEvents] at h
  | cons e rest ih =>
    intro st k f h
    cases hpe : processEvent cfg st e with
    | mk evs r =>
      cases r with
      | cont st' =>
        have hred : (processEvents cfg st (e :: rest)).2 =
            (processEvents cfg st' rest).2 := by
          simp [processEvents, hpe]
        rw [hred] at h
        exact ih st' h
      | fin k0 f0 =>
        have hred : (processEvents cfg st (e :: rest)).2 = .fin k0 f0 := by
          simp [processEvents, hpe]
        rw [hred] at h
        have hk : k0 = k := by
          have := congrArg
            (fun r => match r with | StepRes.fin k _ => k | .cont _ => k0) h
          simpa using this
        have hf : f0 = f := by
          have := congrArg
            (fun r => match r with | StepRes.fin _ f => f | .cont _ => f0) h
          simpa using this
        subst hk
        subst hf
        exact processEvent_fin_shape cfg st e (by rw [hpe])

/-! ## Claims about the stream parser -/

/-- Claim C4 counterexample: a stream that reaches `[DONE]` before the limit
ends normally, but its final aggregate does NOT carry `truncated: false` —
the `[DONE]` return statement builds `{model, output, raw?}` with no
`truncated` field at all (`none` here), so the field is absent rather than
present-and-false. -/
theorem C4_done_counterexample :
    (runStream ⟨"gpt-5", 800, "Base streaming safety limit", 65536, fun _ => none⟩
        ["data: [DONE]"]).2.1 = EndKind.doneSentinel ∧
    (runStream ⟨"gpt-5", 800, "Base streaming safety limit", 65536, fun _ => none⟩
        ["data: [DONE]"]).2.2.truncated = none ∧
    ¬((runStream ⟨"gpt-5", 800, "Base streaming safety limit", 65536, fun _ => none⟩
        ["data: [DONE]"]).2.2.truncated = some false) := by
  decide

/-- Claim C4 amended: for every SSE stream in which the `[DONE]` sentinel
is reached before the running token estimate reaches the policy limit, the
produced sequence ends normally and its final aggregate result carries the
accumulated output with NO `truncated` field (absent/undefined, hence
falsy — not an explicit `truncated: false`), and likewise no `limit` or
`rationale` field. -/
theorem C4_done_stream_truncated_absent (cfg : StreamCfg) (events : List String)
    (h : (runStream cfg events).2.1 = .doneSentinel) :
    (runStream cfg events).2.2.truncated = none ∧
    (runStream cfg events).2.2.limit = none ∧
    (runStream cfg events).2.2.rationale = none := by
  unfold runStream at h ⊢
  dsimp only at h ⊢
  cases hpe : processEvents cfg ⟨none, "", [], 0⟩ events with
  | mk evs r =>
    rw [hpe] at h
    cases r with
    | cont st => simp at h
    | fin k f =>
      have hk : k = .doneSentinel := by simpa using h
      exact (processEvents_fin_shape cfg events ⟨none, "", [], 0⟩ (by rw [hpe])).1 hk

/-- Witness for C4 (amended): a two-event stream with one parsed delta
(`"Hello world"`, 2 naive tokens, below the 800 limit) followed by
`[DONE]`. -/
theorem C4_done_stream_witness :
    (runStream
        ⟨"gpt-5", 800, "Base streaming safety limit", 65536,
          fun s => if s = "{x}" then some ⟨some "Hello world", []⟩ else none⟩
        ["data: {x}", "data: [DONE]"]).2.2.truncated = none :=
  (C4_done_stream_truncated_absent
    ⟨"gpt-5", 800, "Base streaming safety limit", 65536,
      fun s => if s = "{x}" then some ⟨some "Hello world", []⟩ else none⟩
    ["data: {x}", "data: [DONE]"] (by decide)).1

/-- Claim C8: the stream parser never fails on a content-level anomaly: a
single SSE event whose byte length exceeds the (truthy) configured maximum
is skipped with no events, no error and no state change, and processing of
the following events continues as if it were absent; a `data:` line that
is not `[DONE]` and fails JSON parsing is likewise ignored with processing
of the remaining lines unaffected. -/
theorem C8_parser_skips_anomalies (cfg : StreamCfg) (st : IterState)
    (raw dl : String) (rest : List String)
    (hmax : cfg.maxEventBytes ≠ 0) (hbig : cfg.maxEventBytes < raw.utf8ByteSize)
    (hdl : dl ≠ "[DONE]") (hparse : cfg.parseJson dl = none) :
    processEvent cfg st raw = ([], .cont st) ∧
    processEvents cfg st (raw :: rest) = processEvents cfg st rest ∧
    processDataLine cfg st dl = ([], .cont st) ∧
    ∀ ls : List String, processLines cfg st (dl :: ls) = processLines cfg st ls := by
  have hskip : processEvent cfg st raw = ([], .cont st) := by
    unfold processEvent
    rw [if_pos ⟨hmax, hbig⟩]
  have hline : processDataLine cfg st dl = ([], .cont st) := by
    unfold processDataLine
    rw [if_neg hdl, hparse]
  refine ⟨hskip, ?_, hline, ?_⟩
  · show (match processEvent cfg st raw with
      | (evs, .cont st') =>
        ((evs ++ (processEvents cfg st' rest).1, (processEvents cfg st' rest).2) :
          List StreamEvent × StepRes)
      | (evs, .fin k f) => (evs, .fin k f)) = processEvents cfg st rest
    rw [hskip]
    simp
  · intro ls
    show (match processDataLine cfg st dl with
      | (evs, .cont st') =>
        ((evs ++ (processLines cfg st' ls).1, (processLines cfg st' ls).2) :
          List StreamEvent × StepRes)
      | (evs, .fin k f) => (evs, .fin k f)) = processLines cfg st ls
    rw [hline]
    simp

/-- Witness for C8: a 4-byte maximum skips the 9-byte event
`"data: {y}"`, and the unparseable line `"nonsense"` is ignored. -/
theorem C8_parser_skips_witness :
    processEvent ⟨"gpt-5", 800, "r", 4, fun _ => none⟩ ⟨none, "", [], 0⟩ "data: {y}" =
      ([], .cont ⟨none, "", [], 0⟩) ∧
    processDataLine ⟨"gpt-5", 800, "r", 4, fun _ => none⟩ ⟨none, "", [], 0⟩ "nonsense" =
      ([], .cont ⟨none, "", [], 0⟩) := by
  have h := C8_parser_skips_anomalies ⟨"gpt-5", 800, "r", 4, fun _ => none⟩
    ⟨none, "", [], 0⟩ "data: {y}" "nonsense" [] (by decide) (by decide) (by decide) rfl
  exact ⟨h.1, h.2.2.1⟩

/-! ## Lemmas: delta token counts never decrease -/

theorem tokensOk_skip (st : IterState) : tokensOk st ([], .cont st) := by
  refine ⟨by simp [deltaTokens], by simp [deltaTokens], le_refl _⟩

theorem tokensOk_pdl (cfg : StreamCfg) (st : IterState) (dl : String) :
    tokensOk st (processDataLine cfg st dl) := by
  unfold processDataLine
  split
  · exact ⟨by simp [deltaTokens], by simp [deltaTokens]⟩
  · split
    · exact tokensOk_skip st
    · split
      · exact ⟨by simp [deltaTokens], by simp [deltaTokens], le_refl _⟩
      · split
        · exact ⟨by simp [deltaTokens], by simp [deltaTokens], le_refl _⟩
        · dsimp only
          split
          · exact ⟨by simp [deltaTokens], by simp [deltaTokens]⟩
          · refine ⟨by simp [deltaTokens], ?_, countTokens_mono _ _⟩
            intro x hx
            simp [deltaTokens] at hx
            subst hx
            exact ⟨countTokens_mono _ _, le_refl _⟩

theorem tokensOk_compose (st st' : IterState) (e1 e2 : List StreamEvent) (r : StepRes)
    (h1 : tokensOk st (e1, .cont st')) (h2 : tokensOk st' (e2, r)) :
    tokensOk st (e1 ++ e2, r) := by
  obtain ⟨hc1, hb1, hle⟩ := h1
  cases r with
  | cont st'' =>
    obtain ⟨hc2, hb2, hle2⟩ := h2
    refine ⟨?_, ?_, le_trans hle hle2⟩
    · rw [deltaTokens_append, List.chain'_append]
      refine ⟨hc1, hc2, ?_⟩
      intro x hx y hy
      have hxm := mem_of_getLast?_eq hx
      have hym := mem_of_head?_eq hy
      exact le_trans (hb1 x hxm).2 (hb2 y hym).1
    · intro x hx
      rw [deltaTokens_append] at hx
      rcases List.mem_append.mp hx with hx1 | hx2
      · exact ⟨(hb1 x hx1).1, le_trans (hb1 x hx1).2 hle2⟩
      · exact ⟨le_trans hle (hb2 x hx2).1, (hb2 x hx2).2⟩
  | fin k f =>
    obtain ⟨hc2, hb2⟩ := h2
    refine ⟨?_, ?_⟩
    · rw [deltaTokens_append, List.chain'_append]
      refine ⟨hc1, hc2, ?_⟩
      intro x hx y hy
      have hxm := mem_of_getLast?_eq hx
      have hym := mem_of_head?_eq hy
      exact le_trans (hb1 x hxm).2 (hb2 y hym)
    · intro x hx
      rw [deltaTokens_append] at hx
      rcases List.mem_append.mp hx with hx1 | hx2
      · exact (hb1 x hx1).1
      · exact le_trans hle (hb2 x hx2)

theorem tokensOk_lines (cfg : StreamCfg) :
    ∀ (ls : List String) (st : IterState), tokensOk st (processLines cfg st ls) := by
  intro ls
  induction ls with
  | nil => intro st; exact tokensOk_skip st
  | cons dl rest ih =>
    intro st
    have hpdl := tokensOk_pdl cfg st dl
    cases hpd : processDataLine cfg st dl with
    | mk evs r =>
      rw [hpd] at hpdl
      cases r with
      | cont st' =>
        have hred : processLines cfg st (dl :: rest) =
            (evs ++ (processLines cfg st' rest).1, (processLines cfg st' rest).2) := by
          simp [processLines, hpd]
        rw [hred]
        have h2 := ih st'
        have h2' : tokensOk st' ((processLines cfg st' rest).1,
            (processLines cfg st' rest).2) := by
          cases hpl : processLines cfg st' rest with
          | mk a b => rw [hpl] at h2; exact h2
        exact tokensOk_compose st st' evs _ _ hpdl h2'
      | fin k f =>
        have hred : processLines cfg st (dl :: rest) = (evs, .fin k f) := by
          simp [processLines, hpd]
        rw [hred]
        exact hpdl

theorem tokensOk_processEvent (cfg : StreamCfg) (st : IterState) (raw : String) :
    tokensOk st (processEvent cfg st raw) := by
  unfold processEvent
  split
  · exact tokensOk_skip st
  · exact tokensOk_lines cfg (dataLines raw) st

theorem tokensOk_events (cfg : StreamCfg) :
    ∀ (events : List String) (st : IterState), tokensOk st (processEvents cfg st events) := by
  intro events
  induction events with
  | nil => intro st; exact tokensOk_skip st
  | cons e rest ih =>
    intro st
    have hpe0 := tokensOk_processEvent cfg st e
    cases hpe : processEvent cfg st e with
    | mk evs r =>
      rw [hpe] at hpe0
      cases r with
      | cont st' =>
        have hred : processEvents cfg st (e :: rest) =
            (evs ++ (processEvents cfg st' rest).1, (processEvents cfg st' rest).2) := by
          simp [processEvents, hpe]
        rw [hred]
        have h2 := ih st'
        have h2' : tokensOk st' ((processEvents cfg st' rest).1,
            (processEvents cfg st' rest).2) := by
          cases hpl : processEvents cfg st' rest with
          | mk a b => rw [hpl] at h2; exact h2
        exact tokensOk_compose st st' evs _ _ hpe0 h2'
      | fin k f =>
        have hred : processEvents cfg st (e :: rest) = (evs, .fin k f) := by
          simp [processEvents, hpe]
        rw [hred]
        exact hpe0

/-- Claim C10: the naive fallback token estimator is monotone under
appending (`naiveCount (s ++ t) ≥ naiveCount s`); consequently, in any
stream — where the estimate is recomputed on the accumulated text after
each delta — the `tokens` values of the successive delta events form a
nondecreasing sequence. -/
theorem C10_naiveCount_monotone_stream_tokens :
    (∀ s t : String, naiveCount s ≤ naiveCount (s ++ t)) ∧
    ∀ (cfg : StreamCfg) (events : List String),
      List.Chain' (· ≤ ·) (deltaTokens (runStream cfg events).1) := by
  refine ⟨naiveCount_mono, ?_⟩
  intro cfg events
  unfold runStream
  dsimp only
  have ht := tokensOk_events cfg events ⟨none, "", [], 0⟩
  cases hpe : processEvents cfg ⟨none, "", [], 0⟩ events with
  | mk evs r =>
    rw [hpe] at ht
    cases r with
    | cont st =>
      show List.Chain' (· ≤ ·) (deltaTokens (.limitInfo cfg.enforcedLimit cfg.rationale :: evs))
      exact ht.1
    | fin k f =>
      show List.Chain' (· ≤ ·) (deltaTokens (.limitInfo cfg.enforcedLimit cfg.rationale :: evs))
      exact ht.1

/-! ## Claim about the provenance recorder -/

/-- Claim C9: every `Agent.invoke` call appends exactly one provenance record
on both the success and the error path; the prompt hash is deterministic —
identical prompt text yields an identical `promptHash` across invocations
(different timestamps, random id suffixes, models or outcomes); and the
record carries the prompt only as `promptHash` plus its UTF-8 byte length
(two prompts agreeing on hash and byte length yield identical records) and
carries the result only through its `usage` and `truncated` fields — never
the output text (two results differing only in output text yield identical
records). -/
theorem C9_provenance_one_record_no_content :
    (∀ (cenv : CryptoEnv) (t0 t1 : Int) (rand model prompt : String)
        (outcome : InvokeOutcome),
      (agentInvoke cenv t0 t1 rand model prompt outcome).2.length = 1) ∧
    (∀ (cenv : CryptoEnv) (t0 t1 t0' t1' : Int) (rand rand' model model' prompt : String)
        (o o' : InvokeOutcome) (e e' : ProvEntry),
      (agentInvoke cenv t0 t1 rand model prompt o).2 = [e] →
      (agentInvoke cenv t0' t1' rand' model' prompt o').2 = [e'] →
      e.promptHash = e'.promptHash) ∧
    (∀ (cenv : CryptoEnv) (ts : Int) (rand model p p' : String)
        (result : Option InvokeResult) (lat : Int) (err : Option String)
        (lm : Option (Int × String)) (co : Option String),
      hashPrompt cenv p = hashPrompt cenv p' → p.utf8ByteSize = p'.utf8ByteSize →
      recordProvenance cenv ts rand model p result lat err lm co =
        recordProvenance cenv ts rand model p' result lat err lm co) ∧
    (∀ (cenv : CryptoEnv) (ts : Int) (rand model p : String) (r r' : InvokeResult)
        (lat : Int) (err : Option String) (lm : Option (Int × String))
        (co : Option String),
      r.usage = r'.usage → r.truncated = r'.truncated →
      recordProvenance cenv ts rand model p (some r) lat err lm co =
        recordProvenance cenv ts rand model p (some r') lat err lm co) := by
  refine ⟨?_, ?_, ?_, ?_⟩
  · intro cenv t0 t1 rand model prompt outcome
    cases outcome <;> rfl
  · intro cenv t0 t1 t0' t1' rand rand' model model' prompt o o' e e' he he'
    have hh : e.promptHash = hashPrompt cenv prompt := by
      cases o <;> simp [agentInvoke] at he <;> rw [← he] <;> rfl
    have hh' : e'.promptHash = hashPrompt cenv prompt := by
      cases o' <;> simp [agentInvoke] at he' <;> rw [← he'] <;> rfl
    rw [hh, hh']
  · intro cenv ts rand model p p' result lat err lm co hhash hbytes
    unfold recordProvenance
    rw [hhash, hbytes]
  · intro cenv ts rand model p r r' lat err lm co husage htrunc
    unfold recordProvenance
    simp only [Option.bind_some, Option.some_bind, husage, htrunc]

/-- Witness for C9 at concrete inputs: a success invocation appends one
record, and two results that differ only in their output text ("ok"
versus "totally different text") produce identical records. -/
theorem C9_provenance_witness :
    (agentInvoke .nodeCrypto 0 5 "abc123" "gpt-5" "Hi" (.ok ⟨"ok", none, none⟩)).2.length
        = 1 ∧
    recordProvenance .nodeCrypto 5 "abc123" "gpt-5" "Hi" (some ⟨"ok", none, none⟩) 5
        none none none =
      recordProvenance .nodeCrypto 5 "abc123" "gpt-5" "Hi"
        (some ⟨"totally different text", none, none⟩) 5 none none none :=
  ⟨C9_provenance_one_record_no_content.1 .nodeCrypto 0 5 "abc123" "gpt-5" "Hi"
      (.ok ⟨"ok", none, none⟩),
    C9_provenance_one_record_no_content.2.2.2 .nodeCrypto 5 "abc123" "gpt-5" "Hi"
      ⟨"ok", none, none⟩ ⟨"totally different text", none, none⟩ 5 none none none rfl rfl⟩

end CtmMon
